import Mathlib

/-!
Verification development for the carquet repository (src/src/main.rs).

The program reads content-addressed records from a CAR archive, decodes each
block to an IPLD value, infers a structural schema per record, groups records
by schema, translates each schema to a parquet column tree, and writes one
parquet file per group by re-walking every record per column.

The definitions below are a shallow embedding of the Rust source:
machine integers become Int with explicit wrapping where the source casts,
fallible code returns Except, and panics (todo!, expect, index out of
bounds) are modelled as distinguished error values.
-/

/-- Embedding of libipld's Ipld value type (the dynamically-typed decoded
record). Cids are modelled as natural-number identifiers, bytes as lists of
byte values, and an f64 payload as its (uninterpreted) IEEE-754 bit pattern:
no claim depends on float arithmetic. An Ipld map is an association list of
key/value pairs (the source's BTreeMap iterated in its stored order). -/
inductive Ipld where
  | null
  | bool (b : Bool)
  | integer (i : Int)
  | float (bits : Nat)
  | string (s : String)
  | bytes (b : List Nat)
  | list (l : List Ipld)
  | map (m : List (String × Ipld))
  | link (c : Nat)

/- Structural equality test for Ipld, written by hand because the nested
recursion through lists defeats automatic derivation. -/
mutual
def Ipld.beq : Ipld → Ipld → Bool
  | .null, .null => true
  | .bool a, .bool b => a == b
  | .integer a, .integer b => a == b
  | .float a, .float b => a == b
  | .string a, .string b => a == b
  | .bytes a, .bytes b => a == b
  | .link a, .link b => a == b
  | .list a, .list b => Ipld.beqList a b
  | .map a, .map b => Ipld.beqEntries a b
  | _, _ => false

def Ipld.beqList : List Ipld → List Ipld → Bool
  | [], [] => true
  | x :: xs, y :: ys => Ipld.beq x y && Ipld.beqList xs ys
  | _, _ => false

def Ipld.beqEntries : List (String × Ipld) → List (String × Ipld) → Bool
  | [], [] => true
  | (k₁, v₁) :: t₁, (k₂, v₂) :: t₂ =>
      k₁ == k₂ && Ipld.beq v₁ v₂ && Ipld.beqEntries t₁ t₂
  | _, _ => false
end

mutual
theorem ipldBeq_iff : ∀ a b : Ipld, Ipld.beq a b = true ↔ a = b
  | .null, b => by cases b <;> simp [Ipld.beq]
  | .bool a, b => by cases b <;> simp [Ipld.beq]
  | .integer a, b => by cases b <;> simp [Ipld.beq]
  | .float a, b => by cases b <;> simp [Ipld.beq]
  | .string a, b => by cases b <;> simp [Ipld.beq]
  | .bytes a, b => by cases b <;> simp [Ipld.beq]
  | .link a, b => by cases b <;> simp [Ipld.beq]
  | .list a, b => by
      cases b <;> simp [Ipld.beq]
      exact ipldBeqList_iff a _
  | .map a, b => by
      cases b <;> simp [Ipld.beq]
      exact ipldBeqEntries_iff a _

theorem ipldBeqList_iff : ∀ a b : List Ipld, Ipld.beqList a b = true ↔ a = b
  | [], b => by cases b <;> simp [Ipld.beqList]
  | x :: xs, b => by
      cases b with
      | nil => simp [Ipld.beqList]
      | cons y ys => simp [Ipld.beqList, ipldBeq_iff x y, ipldBeqList_iff xs ys]

theorem ipldBeqEntries_iff :
    ∀ a b : List (String × Ipld), Ipld.beqEntries a b = true ↔ a = b
  | [], b => by cases b <;> simp [Ipld.beqEntries]
  | (k₁, v₁) :: t₁, b => by
      cases b with
      | nil => simp [Ipld.beqEntries]
      | cons h₂ t₂ =>
          obtain ⟨k₂, v₂⟩ := h₂
          simp [Ipld.beqEntries, ipldBeq_iff v₁ v₂, ipldBeqEntries_iff t₁ t₂,
            and_assoc]
end

instance : DecidableEq Ipld := fun a b => decidable_of_iff _ (ipldBeq_iff a b)

/-- Embedding of the source's Schema enum (main.rs lines 76-87): the
structural shape inferred from an Ipld value. -/
inductive Schema where
  | null
  | bool
  | integer
  | float
  | string
  | bytes
  | list (s : Schema)
  | map (m : List (String × Schema))
  | link

/- Structural equality test for Schema (the source derives PartialEq/Eq). -/
mutual
def Schema.beq : Schema → Schema → Bool
  | .null, .null => true
  | .bool, .bool => true
  | .integer, .integer => true
  | .float, .float => true
  | .string, .string => true
  | .bytes, .bytes => true
  | .link, .link => true
  | .list a, .list b => Schema.beq a b
  | .map a, .map b => Schema.beqEntries a b
  | _, _ => false

def Schema.beqEntries : List (String × Schema) → List (String × Schema) → Bool
  | [], [] => true
  | (k₁, v₁) :: t₁, (k₂, v₂) :: t₂ =>
      k₁ == k₂ && Schema.beq v₁ v₂ && Schema.beqEntries t₁ t₂
  | _, _ => false
end

mutual
theorem schemaBeq_iff : ∀ a b : Schema, Schema.beq a b = true ↔ a = b
  | .null, b => by cases b <;> simp [Schema.beq]
  | .bool, b => by cases b <;> simp [Schema.beq]
  | .integer, b => by cases b <;> simp [Schema.beq]
  | .float, b => by cases b <;> simp [Schema.beq]
  | .string, b => by cases b <;> simp [Schema.beq]
  | .bytes, b => by cases b <;> simp [Schema.beq]
  | .link, b => by cases b <;> simp [Schema.beq]
  | .list a, b => by
      cases b <;> simp [Schema.beq]
      exact schemaBeq_iff a _
  | .map a, b => by
      cases b <;> simp [Schema.beq]
      exact schemaBeqEntries_iff a _

theorem schemaBeqEntries_iff :
    ∀ a b : List (String × Schema), Schema.beqEntries a b = true ↔ a = b
  | [], b => by cases b <;> simp [Schema.beqEntries]
  | (k₁, v₁) :: t₁, b => by
      cases b with
      | nil => simp [Schema.beqEntries]
      | cons h₂ t₂ =>
          obtain ⟨k₂, v₂⟩ := h₂
          simp [Schema.beqEntries, schemaBeq_iff v₁ v₂, schemaBeqEntries_iff t₁ t₂,
            and_assoc]
end

instance : DecidableEq Schema := fun a b => decidable_of_iff _ (schemaBeq_iff a b)

/-- Lexicographic less-or-equal on character lists by code point. Rust
compares Strings by UTF-8 byte order, which coincides with code-point
order because UTF-8 is order-preserving. -/
def charListLe : List Char → List Char → Bool
  | [], _ => true
  | _ :: _, [] => false
  | a :: as, b :: bs =>
      if a.toNat < b.toNat then true
      else if b.toNat < a.toNat then false
      else charListLe as bs

/-- String comparison used by the source's sort_by_key on map keys. -/
def strLe (a b : String) : Bool := charListLe a.data b.data

/-- Ordering of keyed entries by key, as used by sort_by_key in the schema
function (main.rs line 108). -/
def keyLe {α : Type} (a b : String × α) : Prop := strLe a.1 b.1 = true

instance {α : Type} : DecidableRel (keyLe (α := α)) := fun a b =>
  show Decidable (strLe a.1 b.1 = true) from inferInstance

/-- Stable ascending sort of entries by key. The source uses Vec's stable
sort_by_key; insertion sort is also stable, and stable sorts of the same
list under the same total preorder agree elementwise. -/
def sortByKey {α : Type} (l : List (String × α)) : List (String × α) :=
  l.insertionSort keyLe

/- Embedding of the schema function (main.rs lines 89-112): shape inference
by recursive descent. A list collapses to the shape of its first element
(Null when empty); a map recurses on every value and sorts the resulting
entries by key. -/
mutual
def schema : Ipld → Schema
  | .null => .null
  | .bool _ => .bool
  | .integer _ => .integer
  | .float _ => .float
  | .string _ => .string
  | .bytes _ => .bytes
  | .link _ => .link
  | .list [] => .list .null
  | .list (x :: _) => .list (schema x)
  | .map m => .map (sortByKey (schemaEntries m))

def schemaEntries : List (String × Ipld) → List (String × Schema)
  | [] => []
  | (k, v) :: t => (k, schema v) :: schemaEntries t
end

/-- Physical column types of the parquet model (parquet::basic::Type). -/
inductive PhysType where
  | boolean
  | int32
  | int64
  | int96
  | float
  | double
  | byteArray
  | fixedLenByteArray
  deriving DecidableEq

/-- Repetition markers of the parquet model (parquet::basic::Repetition). -/
inductive Repetition where
  | required
  | optional
  | repeated
  deriving DecidableEq

/-- Logical type annotations used by the source (only the Integer one). -/
inductive LogicalType where
  | integerType (bitWidth : Nat) (isSigned : Bool)
  deriving DecidableEq

/-- Converted type annotations used by the source (only UTF8). -/
inductive ConvertedType where
  | utf8
  deriving DecidableEq

/-- A parquet schema node: either a primitive column declaration or a group
with child fields (parquet::schema::types::Type). -/
inductive PType where
  | primitive (name : String) (physical : PhysType) (repetition : Repetition)
      (logical : Option LogicalType) (converted : Option ConvertedType)
  | group (name : String) (repetition : Repetition) (fields : List PType)

/- Embedding of parquet_schema (main.rs lines 114-206): translates a Schema
into a parquet type declaration. The todo!() reached for a List inside an
already-repeated context (lines 182-189) is modelled as none; every other
variant builds a declaration. A Map translates each (key, value) entry with
repeated = false under the key as field name. -/
mutual
def parquet_schema : Schema → String → Bool → Option PType
  | .null, name, repeated =>
      some (.primitive name .boolean (if repeated then .repeated else .required) none none)
  | .bool, name, repeated =>
      some (.primitive name .boolean (if repeated then .repeated else .required) none none)
  | .integer, name, repeated =>
      some (.primitive name .int64 (if repeated then .repeated else .required)
        (some (.integerType 64 false)) none)
  | .float, name, repeated =>
      some (.primitive name .double (if repeated then .repeated else .required) none none)
  | .string, name, repeated =>
      some (.primitive name .byteArray (if repeated then .repeated else .required)
        none (some .utf8))
  | .bytes, name, repeated =>
      some (.primitive name .byteArray (if repeated then .repeated else .required) none none)
  | .link, name, repeated =>
      some (.primitive name .byteArray (if repeated then .repeated else .required) none none)
  | .list l, name, repeated =>
      if repeated then none
      else parquet_schema l name true
  | .map m, name, repeated =>
      match parquetFields m with
      | none => none
      | some fields => some (.group name (if repeated then .repeated else .required) fields)

def parquetFields : List (String × Schema) → Option (List PType)
  | [] => some []
  | (k, v) :: t =>
      match parquet_schema v k false, parquetFields t with
      | some f, some fs => some (f :: fs)
      | _, _ => none
end

/- Characterization of the shapes parquet_schema can translate: every
variant except a List encountered in an already-repeated context. -/
mutual
def noNestedList : Schema → Bool → Bool
  | .list _, true => false
  | .list s, false => noNestedList s true
  | .map m, _ => noNestedListEntries m
  | _, _ => true

def noNestedListEntries : List (String × Schema) → Bool
  | [] => true
  | (_, v) :: t => noNestedList v false && noNestedListEntries t
end

/-- Embedding of libipld's Ipld::get with a string key, as invoked by
resolve_index (main.rs line 354): looks the key up in a map, anything else
is an indexing error. -/
def ipldGet (d : Ipld) (key : String) : Except String Ipld :=
  match d with
  | .map m =>
      match m.lookup key with
      | some v => .ok v
      | none => .error "key not found"
  | _ => .error "cannot index into value"

/-- The path walk of resolve_index (main.rs lines 353-355): successively
index the decoded value by each remaining path segment. -/
def walkPath : Ipld → List String → Except String Ipld
  | d, [] => .ok d
  | d, p :: rest =>
      match ipldGet d p with
      | .ok d2 => walkPath d2 rest
      | .error e => .error e

/-- The in-place update values[0].1 = 0 guarded by !values.is_empty()
(main.rs lines 361-363). -/
def setFirstLevelZero : List (Ipld × Int) → List (Ipld × Int)
  | [] => []
  | (v, _) :: t => (v, 0) :: t

/-- Embedding of resolve_index (main.rs lines 342-372): produces one
column's (value, repetition level) stream for one record. The out-of-bounds
panic on an empty column path is modelled as a distinguished error. -/
def resolve_index (cid : Nat) (data : Ipld) (bytes : List Nat)
    (path : List String) (maxRepLevel : Int) : Except String (List (Ipld × Int)) :=
  match path with
  | [] => .error "panic: empty column path"
  | root :: rest =>
      if root = "cid" then .ok [(.link cid, 0)]
      else if root = "data" then
        match walkPath data rest with
        | .error e => .error e
        | .ok d =>
            match d with
            | .list l => .ok (setFirstLevelZero (l.map fun ipld => (ipld, maxRepLevel)))
            | _ => .ok [(d, 0)]
      else if root = "rawdata" then .ok [(.bytes bytes, 0)]
      else .error "unexpected root path"

/-- Errors of the column writer: a dynamic-tag mismatch carrying the
offending value and the expected kind (the anyhow "bad type" messages), a
resolver failure (the source's .expect panic), or a todo!() branch. -/
inductive WriteError where
  | badType (value : Ipld) (expecting : String)
  | resolveFailed (msg : String)
  | notImplemented
  deriving DecidableEq

/-- Wrapping cast to a signed 64-bit integer, the semantics of the source's
i as i64 on the i128 payload (main.rs line 280). -/
def wrapI64 (i : Int) : Int := (i + 2 ^ 63) % 2 ^ 64 - 2 ^ 63

/-- Wrapping cast to a signed 32-bit integer, the semantics of i as i32
(main.rs line 266). -/
def wrapI32 (i : Int) : Int := (i + 2 ^ 31) % 2 ^ 32 - 2 ^ 31

/-- Placeholder byte encoding of a Cid; no claim depends on its content. -/
def cidToBytes (c : Nat) : List Nat := [c]

/-- UTF-8 bytes of a string, for the BYTE_ARRAY branch's s.as_bytes(). -/
def strBytes (s : String) : List Nat := (String.toUTF8 s).toList.map (fun b => b.toNat)

/-- Value coercion of the BOOLEAN branch (main.rs lines 251-254). The
source's error message in this branch also says expecting integer. -/
def coerceBool : Ipld → Except WriteError Bool
  | .bool b => .ok b
  | v => .error (.badType v "integer")

/-- Value coercion of the INT32 branch (main.rs lines 265-268). -/
def coerceInt32 : Ipld → Except WriteError Int
  | .integer i => .ok (wrapI32 i)
  | v => .error (.badType v "integer")

/-- Value coercion of the INT64 branch (main.rs lines 279-282). -/
def coerceInt64 : Ipld → Except WriteError Int
  | .integer i => .ok (wrapI64 i)
  | v => .error (.badType v "integer")

/-- Value coercion of the FLOAT branch (main.rs lines 294-297). The f64 to
f32 narrowing is kept as the bit payload: no claim depends on it, and
parquet_schema never declares a FLOAT column. -/
def coerceFloat : Ipld → Except WriteError Nat
  | .float bits => .ok bits
  | v => .error (.badType v "float")

/-- Value coercion of the DOUBLE branch (main.rs lines 308-311); f as f64
is the identity on doubles. -/
def coerceDouble : Ipld → Except WriteError Nat
  | .float bits => .ok bits
  | v => .error (.badType v "float")

/-- Value coercion of the BYTE_ARRAY branch (main.rs lines 322-329): string
bytes, raw bytes, the Cid's binary form, and the zero-length placeholder
for Null (the source's TODO on proper null handling). -/
def coerceByteArray : Ipld → Except WriteError (List Nat)
  | .string s => .ok (strBytes s)
  | .bytes b => .ok b
  | .link c => .ok (cidToBytes c)
  | .null => .ok []
  | v => .error (.badType v "byteish")

/-- Short-circuiting collection of per-value results, the semantics of the
source's .collect::<Result<Vec<_>>>() (first error aborts the batch). -/
def collectResults {ε α β : Type} (f : α → Except ε β) : List α → Except ε (List β)
  | [] => .ok []
  | a :: t =>
      match f a with
      | .error e => .error e
      | .ok b =>
          match collectResults f t with
          | .error e => .error e
          | .ok bs => .ok (b :: bs)

/-- One typed batch handed to the column writer. -/
inductive BatchOut where
  | bools (vs : List Bool)
  | int32s (vs : List Int)
  | int64s (vs : List Int)
  | floats (vs : List Nat)
  | doubles (vs : List Nat)
  | byteArrays (vs : List (List Nat))
  deriving DecidableEq

/-- The per-physical-type dispatch of parquet_write_col (main.rs lines
246-338): coerce every resolved value to the declared physical
representation, failing on the first mismatch; INT96 and
FIXED_LEN_BYTE_ARRAY are todo!() branches. -/
def writeValues (t : PhysType) (values : List Ipld) : Except WriteError BatchOut :=
  match t with
  | .boolean => (collectResults coerceBool values).map .bools
  | .int32 => (collectResults coerceInt32 values).map .int32s
  | .int64 => (collectResults coerceInt64 values).map .int64s
  | .int96 => .error .notImplemented
  | .float => (collectResults coerceFloat values).map .floats
  | .double => (collectResults coerceDouble values).map .doubles
  | .byteArray => (collectResults coerceByteArray values).map .byteArrays
  | .fixedLenByteArray => .error .notImplemented

/-- A record as carried through main: (cid, decoded Ipld, raw block bytes). -/
abbrev Rec : Type := Nat × Ipld × List Nat

/-- The column descriptor data parquet_write_col reads from the writer:
dotted path, physical type, max repetition level and max definition level. -/
structure ColDesc where
  path : List String
  physicalType : PhysType
  maxRepLevel : Int
  maxDefLevel : Int

/-- The three parallel arrays handed to write_batch. -/
structure ColumnBatch where
  out : BatchOut
  defLevels : Option (List Int)
  repLevels : List Int

/-- Embedding of parquet_write_col (main.rs lines 224-340): resolve every
record along the column path (a resolver error is the source's .expect
panic), flatten values and repetition levels, emit constant definition
levels when max_def_level is positive, and write the typed batch. -/
def parquet_write_col (desc : ColDesc) (cids : List Rec) : Except WriteError ColumnBatch :=
  match collectResults
      (fun r => resolve_index r.1 r.2.1 r.2.2 desc.path desc.maxRepLevel) cids with
  | .error e => .error (.resolveFailed e)
  | .ok resolved =>
      let pairs := resolved.flatten
      let values := pairs.map Prod.fst
      let repLevels := pairs.map Prod.snd
      let defLevels :=
        if desc.maxDefLevel > 0 then some (values.map fun _ => desc.maxDefLevel) else none
      match writeValues desc.physicalType values with
      | .error e => .error e
      | .ok out => .ok ⟨out, defLevels, repLevels⟩

/-- The top-level bucket key built in main (main.rs lines 26-30): a Map
shape with a fixed cid Bytes field and the record's inferred data shape. -/
def bucketKey (r : Rec) : Schema := .map [("cid", .bytes), ("data", schema r.2.1)]

/-- Insertion into the grouping map, modelling
HashMap::entry().or_default().push() (main.rs lines 25-32): append the
record to its key's bucket, creating the bucket if absent. -/
def upsert (k : Schema) (r : Rec) : List (Schema × List Rec) → List (Schema × List Rec)
  | [] => [(k, [r])]
  | (k2, rs) :: t => if k = k2 then (k2, rs ++ [r]) :: t else (k2, rs) :: upsert k r t

/-- The grouping pass of main (main.rs lines 22-36): fold every decoded
record into the Schema-keyed map. -/
def groupBySchema (records : List Rec) : List (Schema × List Rec) :=
  records.foldl (fun acc r => upsert (bucketKey r) r acc) []

/-- Ascending ordering of buckets by population, the key of
sort_unstable_by_key (main.rs line 39). -/
def popLe (a b : Schema × List Rec) : Prop := a.2.length ≤ b.2.length

instance : DecidableRel popLe := fun a b =>
  show Decidable (a.2.length ≤ b.2.length) from inferInstance

/-- The bucket list as main iterates it (main.rs lines 38-40): grouped,
sorted ascending by population, then reversed to descending. -/
def collectSchemas (records : List Rec) : List (Schema × List Rec) :=
  ((groupBySchema records).insertionSort popLe).reverse

/-- Dynamic-tag test: is this value an Integer? -/
def isIntegerTag : Ipld → Bool
  | .integer _ => true
  | _ => false

/-- Dynamic-tag test: is this value a Bool? -/
def isBoolTag : Ipld → Bool
  | .bool _ => true
  | _ => false

/-- Two Ipld values differ only in map-entry insertion order: scalars must
be identical, lists agree pointwise, and a map's entry list is, after
relating values pointwise under identical keys, a permutation of the other
map's entry list. Map keys are required to be duplicate-free, the invariant
a decoded map (a BTreeMap in the source) always satisfies. -/
inductive ReordEquiv : Ipld → Ipld → Prop where
  | null : ReordEquiv .null .null
  | bool (b : Bool) : ReordEquiv (.bool b) (.bool b)
  | integer (i : Int) : ReordEquiv (.integer i) (.integer i)
  | float (f : Nat) : ReordEquiv (.float f) (.float f)
  | string (s : String) : ReordEquiv (.string s) (.string s)
  | bytes (b : List Nat) : ReordEquiv (.bytes b) (.bytes b)
  | link (c : Nat) : ReordEquiv (.link c) (.link c)
  | list (l₁ l₂ : List Ipld) (hlen : l₁.length = l₂.length)
      (h : ∀ (i : Nat) (h₁ : i < l₁.length) (h₂ : i < l₂.length),
        ReordEquiv (l₁.get ⟨i, h₁⟩) (l₂.get ⟨i, h₂⟩)) :
      ReordEquiv (.list l₁) (.list l₂)
  | map (m₁ mid m₂ : List (String × Ipld))
      (hnd : (m₁.map Prod.fst).Nodup)
      (hlen : m₁.length = mid.length)
      (hkey : ∀ (i : Nat) (h₁ : i < m₁.length) (h₂ : i < mid.length),
        (m₁.get ⟨i, h₁⟩).1 = (mid.get ⟨i, h₂⟩).1)
      (hval : ∀ (i : Nat) (h₁ : i < m₁.length) (h₂ : i < mid.length),
        ReordEquiv (m₁.get ⟨i, h₁⟩).2 (mid.get ⟨i, h₂⟩).2)
      (hperm : mid.Perm m₂) :
      ReordEquiv (.map m₁) (.map m₂)

/-- Claim C1 (counterexample): at a column whose data path resolves to an
empty list, resolve_index emits zero pairs, not one. -/
theorem resolve_index_empty_list_cex :
    (resolve_index 0 (Ipld.list []) [] ["data"] 1).map List.length = Except.ok 0 := by
  rfl

/-- Claim C1 (amended): for every record whose resolved sub-value at the
column's data path is an empty List, resolve_index emits no (value, level)
pairs at all. -/
theorem resolve_index_empty_list (cid : Nat) (data : Ipld) (bytes : List Nat)
    (rest : List String) (maxRepLevel : Int)
    (h : walkPath data rest = .ok (.list [])) :
    resolve_index cid data bytes ("data" :: rest) maxRepLevel = .ok [] := by
  simp [resolve_index, h, setFirstLevelZero]

/-- Witness for the amended claim C1 at a concrete record. -/
theorem resolve_index_empty_list_witness :
    resolve_index 7 (Ipld.list []) [9] ["data"] 3 = .ok [] :=
  resolve_index_empty_list 7 (Ipld.list []) [9] [] 3 rfl

/-- Claim C2 (counterexample): the root path segment rawbytes is not
recognised by resolve_index; it hits the unexpected-root-path error, because
the source's reserved raw-bytes root is spelled rawdata. -/
theorem resolve_index_rawbytes_cex :
    resolve_index 0 Ipld.null [1, 2] ["rawbytes"] 0 = .error "unexpected root path" := by
  rfl

/-- Claim C2 (amended): for every record, resolve_index called with a column
path whose root segment is rawdata returns the record's undecoded raw bytes
as a single Bytes value with repetition level 0. -/
theorem resolve_index_rawdata (cid : Nat) (data : Ipld) (bytes : List Nat)
    (rest : List String) (maxRepLevel : Int) :
    resolve_index cid data bytes ("rawdata" :: rest) maxRepLevel =
      .ok [(.bytes bytes, 0)] := by
  simp [resolve_index]

/-- Claim C3: at a column whose data path resolves to a non-empty list,
resolve_index emits one pair per element; the first carries level 0 and
every subsequent one carries the column's maximum repetition level. -/
theorem resolve_index_list_levels (cid : Nat) (data : Ipld) (bytes : List Nat)
    (rest : List String) (maxRepLevel : Int) (x : Ipld) (t : List Ipld)
    (h : walkPath data rest = .ok (.list (x :: t))) :
    resolve_index cid data bytes ("data" :: rest) maxRepLevel =
      .ok ((x, 0) :: t.map fun v => (v, maxRepLevel)) ∧
    ((x, 0) :: t.map fun v => (v, maxRepLevel)).length = (x :: t).length ∧
    ((x, 0) :: t.map fun v => (v, maxRepLevel)).map Prod.snd =
      0 :: t.map fun _ => maxRepLevel := by
  refine ⟨?_, by simp, by simp only [List.map_cons, List.map_map]; rfl⟩
  simp [resolve_index, h, setFirstLevelZero]

/-- Witness for claim C3: a 3-element payload list yields exactly 3 pairs
with levels 0, max, max. -/
theorem resolve_index_list_levels_witness :
    resolve_index 0 (Ipld.list [Ipld.integer 1, Ipld.integer 2, Ipld.integer 3])
        [] ["data"] 5 =
      .ok [(Ipld.integer 1, 0), (Ipld.integer 2, 5), (Ipld.integer 3, 5)] ∧
    [(Ipld.integer 1, (0 : Int)), (Ipld.integer 2, 5), (Ipld.integer 3, 5)].length =
      [Ipld.integer 1, Ipld.integer 2, Ipld.integer 3].length ∧
    [(Ipld.integer 1, (0 : Int)), (Ipld.integer 2, 5), (Ipld.integer 3, 5)].map Prod.snd =
      [0, 5, 5] :=
  resolve_index_list_levels 0 (Ipld.list [Ipld.integer 1, Ipld.integer 2, Ipld.integer 3])
    [] [] 5 (Ipld.integer 1) [Ipld.integer 2, Ipld.integer 3] rfl

/-- Claim C5: each scalar Shape variant translates to exactly one physical
column type (Integer to INT64, Float to DOUBLE, String, Bytes and Link to
BYTE_ARRAY, Bool to BOOLEAN and Null to BOOLEAN as a placeholder), with
repetition REPEATED when the repeated flag is set and REQUIRED otherwise. -/
theorem parquet_schema_scalar_types (name : String) (repeated : Bool) :
    parquet_schema .null name repeated =
      some (.primitive name .boolean (if repeated then .repeated else .required)
        none none) ∧
    parquet_schema .bool name repeated =
      some (.primitive name .boolean (if repeated then .repeated else .required)
        none none) ∧
    parquet_schema .integer name repeated =
      some (.primitive name .int64 (if repeated then .repeated else .required)
        (some (.integerType 64 false)) none) ∧
    parquet_schema .float name repeated =
      some (.primitive name .double (if repeated then .repeated else .required)
        none none) ∧
    parquet_schema .string name repeated =
      some (.primitive name .byteArray (if repeated then .repeated else .required)
        none (some .utf8)) ∧
    parquet_schema .bytes name repeated =
      some (.primitive name .byteArray (if repeated then .repeated else .required)
        none none) ∧
    parquet_schema .link name repeated =
      some (.primitive name .byteArray (if repeated then .repeated else .required)
        none none) := by
  cases repeated <;> exact ⟨rfl, rfl, rfl, rfl, rfl, rfl, rfl⟩

/- Totality characterization of parquet_schema: a translation exists exactly
when no List shape sits inside an already-repeated context. -/
mutual
theorem parquet_schema_isSome :
    ∀ (s : Schema) (name : String) (repeated : Bool),
      (parquet_schema s name repeated).isSome = noNestedList s repeated
  | .null, _, _ => by simp [parquet_schema, noNestedList]
  | .bool, _, _ => by simp [parquet_schema, noNestedList]
  | .integer, _, _ => by simp [parquet_schema, noNestedList]
  | .float, _, _ => by simp [parquet_schema, noNestedList]
  | .string, _, _ => by simp [parquet_schema, noNestedList]
  | .bytes, _, _ => by simp [parquet_schema, noNestedList]
  | .link, _, _ => by simp [parquet_schema, noNestedList]
  | .list l, name, repeated => by
      cases repeated with
      | false => simpa [parquet_schema, noNestedList] using parquet_schema_isSome l name true
      | true => simp [parquet_schema, noNestedList]
  | .map m, name, repeated => by
      have hm := parquetFields_isSome m
      simp only [parquet_schema, noNestedList]
      cases h : parquetFields m with
      | none => rw [h] at hm; simpa using hm.symm
      | some fs => rw [h] at hm; simpa using hm.symm

theorem parquetFields_isSome :
    ∀ m : List (String × Schema), (parquetFields m).isSome = noNestedListEntries m
  | [] => by simp [parquetFields, noNestedListEntries]
  | (k, v) :: t => by
      have hv := parquet_schema_isSome v k false
      have ht := parquetFields_isSome t
      simp only [parquetFields, noNestedListEntries]
      cases h1 : parquet_schema v k false <;> cases h2 : parquetFields t <;>
        rw [h1] at hv <;> rw [h2] at ht <;> simp_all
end

/-- Claim C6: parquet_schema is total for every Shape except a List inside
an already-repeated context, where it fails fast (the source's todo!(),
modelled as none) instead of silently mis-encoding; a List in a
non-repeated context translates its inner shape with the repeated flag set
under the same field name. -/
theorem parquet_schema_totality :
    (∀ (inner : Schema) (name : String), parquet_schema (.list inner) name true = none) ∧
    (∀ (inner : Schema) (name : String),
      parquet_schema (.list inner) name false = parquet_schema inner name true) ∧
    (∀ (s : Schema) (name : String) (repeated : Bool),
      (parquet_schema s name repeated).isSome = noNestedList s repeated) :=
  ⟨fun _ _ => rfl, fun _ _ => rfl, parquet_schema_isSome⟩

/-- Claim C10: the Integer shape is declared as an INT64 column whose
logical type says unsigned 64-bit, while the emitter accepts every wide
integer and stores its wrapping cast to signed 64-bit range, with no
overflow check: the cast is congruent mod 2^64, lands in the signed range,
fixes in-range negatives, and wraps 2^63 to -2^63. -/
theorem parquet_integer_unsigned_wrapping :
    (∀ (name : String) (repeated : Bool),
      parquet_schema .integer name repeated =
        some (.primitive name .int64 (if repeated then .repeated else .required)
          (some (.integerType 64 false)) none)) ∧
    (∀ i : Int, coerceInt64 (.integer i) = .ok (wrapI64 i)) ∧
    (∀ i : Int, (2 ^ 64 : Int) ∣ (wrapI64 i - i) ∧
      -(2 ^ 63) ≤ wrapI64 i ∧ wrapI64 i < 2 ^ 63) ∧
    wrapI64 (-5) = -5 ∧ wrapI64 (2 ^ 63) = -(2 ^ 63) := by
  refine ⟨fun name repeated => by cases repeated <;> rfl, fun i => rfl, fun i => ?_, ?_, ?_⟩
  · refine ⟨⟨-((i + 2 ^ 63) / 2 ^ 64), ?_⟩, ?_, ?_⟩
    · rw [wrapI64, Int.emod_def]; ring
    · have h1 : 0 ≤ (i + 2 ^ 63) % 2 ^ 64 := Int.emod_nonneg _ (by norm_num)
      rw [wrapI64]; omega
    · have h2 : (i + 2 ^ 63) % 2 ^ 64 < 2 ^ 64 := Int.emod_lt_of_pos _ (by norm_num)
      rw [wrapI64]; omega
  · decide
  · decide

/-- When some value of a batch fails its per-value conversion, the batch
collection fails with the error of one such value (the first one). -/
theorem collectResults_error_of_mem {ε α β : Type} (f : α → Except ε β)
    (values : List α) (h : ∃ v ∈ values, ∃ e, f v = .error e) :
    ∃ w ∈ values, ∃ e, f w = .error e ∧ collectResults f values = .error e := by
  induction values with
  | nil => simp at h
  | cons a t ih =>
      cases hfa : f a with
      | error e => exact ⟨a, by simp, e, hfa, by simp [collectResults, hfa]⟩
      | ok b =>
          obtain ⟨v, hv, e, hfv⟩ := h
          have hvt : v ∈ t := by
            rcases List.mem_cons.mp hv with rfl | h2
            · rw [hfa] at hfv; cases hfv
            · exact h2
          obtain ⟨w, hw, e2, hfw, hcr⟩ := ih ⟨v, hvt, e, hfv⟩
          exact ⟨w, List.mem_cons_of_mem _ hw, e2, hfw,
            by simp [collectResults, hfa, hcr]⟩

/-- Claim C7: writing a batch to an INT64 column fails with a bad-type
error naming an offending non-Integer value of the batch (and so neither
coerces nor drops it) whenever the batch holds any value whose dynamic tag
is not Integer. -/
theorem int64_bad_type_error (values : List Ipld)
    (h : ∃ v ∈ values, isIntegerTag v = false) :
    ∃ w ∈ values, isIntegerTag w = false ∧
      writeValues .int64 values = .error (.badType w "integer") := by
  obtain ⟨v, hv, hvt⟩ := h
  have herr : ∃ e, coerceInt64 v = .error e := by
    cases v <;> simp [coerceInt64] <;> simp [isIntegerTag] at hvt
  obtain ⟨w, hw, e, hfw, hcr⟩ := collectResults_error_of_mem coerceInt64 values ⟨v, hv, herr⟩
  have hwt : isIntegerTag w = false := by
    cases w <;> simp [isIntegerTag] <;> simp [coerceInt64] at hfw
  have he : e = .badType w "integer" := by
    cases w <;> simp [coerceInt64] at hfw <;> exact hfw.symm
  exact ⟨w, hw, hwt, by simp [writeValues, hcr, he, Except.map]⟩

/-- Witness for claim C7: a String value under an INT64 column. -/
theorem int64_bad_type_error_witness :
    ∃ w ∈ [Ipld.string "a"], isIntegerTag w = false ∧
      writeValues .int64 [Ipld.string "a"] = .error (.badType w "integer") :=
  int64_bad_type_error [Ipld.string "a"] ⟨Ipld.string "a", by simp, by rfl⟩

/-- Claim C9: both the Null and the Bool shape declare a BOOLEAN column;
the zero-length placeholder for Null values exists only in the BYTE_ARRAY
branch, and the BOOLEAN branch rejects a Null value, so a batch containing
a null under a BOOLEAN column aborts with a bad-type error instead of
being encoded. -/
theorem boolean_null_bad_type (values : List Ipld) (h : Ipld.null ∈ values) :
    (∀ (name : String) (repeated : Bool),
      parquet_schema .null name repeated =
        some (.primitive name .boolean (if repeated then .repeated else .required)
          none none) ∧
      parquet_schema .bool name repeated =
        some (.primitive name .boolean (if repeated then .repeated else .required)
          none none)) ∧
    coerceBool .null = .error (.badType .null "integer") ∧
    coerceByteArray .null = .ok [] ∧
    (∃ w ∈ values, isBoolTag w = false ∧
      writeValues .boolean values = .error (.badType w "integer")) := by
  refine ⟨fun name repeated => by cases repeated <;> exact ⟨rfl, rfl⟩, rfl, rfl, ?_⟩
  obtain ⟨w, hw, e, hfw, hcr⟩ := collectResults_error_of_mem coerceBool values
    ⟨.null, h, ⟨_, rfl⟩⟩
  have hwt : isBoolTag w = false := by
    cases w <;> simp [isBoolTag] <;> simp [coerceBool] at hfw
  have he : e = .badType w "integer" := by
    cases w <;> simp [coerceBool] at hfw <;> exact hfw.symm
  exact ⟨w, hw, hwt, by simp [writeValues, hcr, he, Except.map]⟩

/-- Witness for claim C9 at a batch holding exactly one null. -/
theorem boolean_null_bad_type_witness :
    (∀ (name : String) (repeated : Bool),
      parquet_schema .null name repeated =
        some (.primitive name .boolean (if repeated then .repeated else .required)
          none none) ∧
      parquet_schema .bool name repeated =
        some (.primitive name .boolean (if repeated then .repeated else .required)
          none none)) ∧
    coerceBool .null = .error (.badType .null "integer") ∧
    coerceByteArray .null = .ok [] ∧
    (∃ w ∈ [Ipld.null], isBoolTag w = false ∧
      writeValues .boolean [Ipld.null] = .error (.badType w "integer")) :=
  boolean_null_bad_type [Ipld.null] (by simp)

/-- Totality of the key comparison. -/
theorem charListLe_total : ∀ a b : List Char, charListLe a b = true ∨ charListLe b a = true
  | [], _ => Or.inl rfl
  | _ :: _, [] => Or.inr rfl
  | a :: as, b :: bs => by
      rcases Nat.lt_trichotomy a.toNat b.toNat with h | h | h
      · left; simp [charListLe, h]
      · rcases charListLe_total as bs with ih | ih
        · left; simp [charListLe, h, ih]
        · right; simp [charListLe, h.symm, ih]
      · right; simp [charListLe, h]

/-- Transitivity of the key comparison. -/
theorem charListLe_trans : ∀ a b c : List Char, charListLe a b = true →
    charListLe b c = true → charListLe a c = true
  | [], _, _, _, _ => rfl
  | _ :: _, [], _, hab, _ => by simp [charListLe] at hab
  | _ :: _, _ :: _, [], _, hbc => by simp [charListLe] at hbc
  | a :: as, b :: bs, c :: cs, hab, hbc => by
      simp only [charListLe] at hab hbc ⊢
      split at hab
      case isTrue h1 =>
        split at hbc
        case isTrue h2 => rw [if_pos (by omega)]
        case isFalse h2 =>
          split at hbc
          case isTrue h3 => cases hbc
          case isFalse h3 => rw [if_pos (by omega)]
      case isFalse h1 =>
        split at hab
        case isTrue h2 => cases hab
        case isFalse h2 =>
          split at hbc
          case isTrue h3 => rw [if_pos (by omega)]
          case isFalse h3 =>
            split at hbc
            case isTrue h4 => cases hbc
            case isFalse h4 =>
              rw [if_neg (by omega), if_neg (by omega)]
              exact charListLe_trans as bs cs hab hbc

/-- Antisymmetry of the key comparison. -/
theorem charListLe_antisymm : ∀ a b : List Char, charListLe a b = true →
    charListLe b a = true → a = b
  | [], [], _, _ => rfl
  | [], _ :: _, _, hba => by simp [charListLe] at hba
  | _ :: _, [], hab, _ => by simp [charListLe] at hab
  | a :: as, b :: bs, hab, hba => by
      simp only [charListLe] at hab hba
      split at hab
      case isTrue h1 =>
        rw [if_neg (by omega), if_pos (by omega)] at hba
        cases hba
      case isFalse h1 =>
        split at hab
        case isTrue h2 => cases hab
        case isFalse h2 =>
          have hn : a.toNat = b.toNat := by omega
          have hc : a = b := Char.ext (UInt32.toNat.inj hn)
          subst hc
          rw [if_neg (by omega), if_neg (by omega)] at hba
          rw [charListLe_antisymm as bs hab hba]

theorem strLe_total (a b : String) : strLe a b = true ∨ strLe b a = true :=
  charListLe_total a.data b.data

theorem strLe_trans {a b c : String} (hab : strLe a b = true) (hbc : strLe b c = true) :
    strLe a c = true :=
  charListLe_trans a.data b.data c.data hab hbc

theorem strLe_antisymm {a b : String} (hab : strLe a b = true)
    (hba : strLe b a = true) : a = b := by
  cases a; cases b
  exact congrArg String.mk (charListLe_antisymm _ _ hab hba)

instance {α : Type} : IsTotal (String × α) keyLe := ⟨fun a b => strLe_total a.1 b.1⟩

instance {α : Type} : IsTrans (String × α) keyLe :=
  ⟨fun _ _ _ hab hbc => strLe_trans hab hbc⟩

theorem sortByKey_perm {α : Type} (l : List (String × α)) : (sortByKey l).Perm l :=
  List.perm_insertionSort keyLe l

theorem sortByKey_sorted {α : Type} (l : List (String × α)) :
    (sortByKey l).Pairwise keyLe :=
  List.sorted_insertionSort keyLe l

/-- Key-sorting two permutations of the same entry list with duplicate-free
keys yields one and the same sorted list. -/
theorem sortByKey_eq_of_perm {α : Type} {l₁ l₂ : List (String × α)}
    (hp : l₁.Perm l₂) (hnd : (l₁.map Prod.fst).Nodup) :
    sortByKey l₁ = sortByKey l₂ := by
  have hperm : (sortByKey l₁).Perm (sortByKey l₂) :=
    (sortByKey_perm l₁).trans (hp.trans (sortByKey_perm l₂).symm)
  have hnd₁ : ((sortByKey l₁).map Prod.fst).Nodup :=
    (((sortByKey_perm l₁).map Prod.fst).nodup_iff).mpr hnd
  have hnd₂ : ((sortByKey l₂).map Prod.fst).Nodup :=
    ((((sortByKey_perm l₂).map Prod.fst).trans (hp.map Prod.fst).symm).nodup_iff).mpr hnd
  have hs₁ : (sortByKey l₁).Pairwise fun a b => keyLe a b ∧ a.1 ≠ b.1 :=
    (sortByKey_sorted l₁).and (List.pairwise_map.mp hnd₁)
  have hs₂ : (sortByKey l₂).Pairwise fun a b => keyLe a b ∧ a.1 ≠ b.1 :=
    (sortByKey_sorted l₂).and (List.pairwise_map.mp hnd₂)
  haveI : IsAntisymm (String × α) fun a b => keyLe a b ∧ a.1 ≠ b.1 := ⟨by
    rintro a b ⟨hab, hne⟩ ⟨hba, _⟩
    exact absurd (strLe_antisymm hab hba) hne⟩
  exact List.eq_of_perm_of_sorted hperm hs₁ hs₂

theorem schemaEntries_eq_map : ∀ m : List (String × Ipld),
    schemaEntries m = m.map fun p => (p.1, schema p.2)
  | [] => rfl
  | (k, v) :: t => by simp [schemaEntries, schemaEntries_eq_map t]

/-- Shape inference is invariant under map-entry reordering. -/
theorem schema_reordEquiv : ∀ {a b : Ipld}, ReordEquiv a b → schema a = schema b := by
  intro a b h
  induction h with
  | null => rfl
  | bool _ => rfl
  | integer _ => rfl
  | float _ => rfl
  | string _ => rfl
  | bytes _ => rfl
  | link _ => rfl
  | list l₁ l₂ hlen h ih =>
      cases l₁ with
      | nil =>
          cases l₂ with
          | nil => rfl
          | cons y ys => simp at hlen
      | cons x xs =>
          cases l₂ with
          | nil => simp at hlen
          | cons y ys =>
              have h0 := ih 0 (by simp) (by simp)
              simp only [List.get] at h0
              simp [schema, h0]
  | map m₁ mid m₂ hnd hlen hkey hval hperm ih =>
      have hmap : schemaEntries m₁ = schemaEntries mid := by
        rw [schemaEntries_eq_map, schemaEntries_eq_map]
        apply List.ext_get (by simp [hlen])
        intro i h₁ h₂
        simp only [List.get_eq_getElem, List.getElem_map]
        have hk := hkey i (by simpa using h₁) (by simpa using h₂)
        have hv := ih i (by simpa using h₁) (by simpa using h₂)
        simp only [List.get_eq_getElem] at hk hv
        exact congrArg₂ Prod.mk hk hv
      have hperm2 : (schemaEntries mid).Perm (schemaEntries m₂) := by
        rw [schemaEntries_eq_map, schemaEntries_eq_map]
        exact hperm.map _
      have hnd2 : ((schemaEntries mid).map Prod.fst).Nodup := by
        rw [← hmap, schemaEntries_eq_map, List.map_map]
        exact hnd
      have hsort : sortByKey (schemaEntries m₁) = sortByKey (schemaEntries m₂) := by
        rw [hmap]
        exact sortByKey_eq_of_perm hperm2 hnd2
      simp [schema, hsort]

/-- Claim C4: shape inference is deterministic and structural; two values
differing only in map-entry insertion order infer equal Shapes, because a
map's inferred entries are the key-sorted image of its own entries. -/
theorem schema_insertion_order_invariant :
    (∀ a b : Ipld, ReordEquiv a b → schema a = schema b) ∧
    (∀ m : List (String × Ipld),
      schema (.map m) = .map (sortByKey (m.map fun p => (p.1, schema p.2))) ∧
      (sortByKey (m.map fun p => (p.1, schema p.2))).Pairwise keyLe) :=
  ⟨fun _ _ h => schema_reordEquiv h,
   fun m => ⟨by simp [schema, schemaEntries_eq_map], sortByKey_sorted _⟩⟩

/-- Witness for claim C4: the maps with keys b, a and a, b in either
insertion order infer the same Shape. -/
theorem schema_insertion_order_invariant_witness :
    ReordEquiv (Ipld.map [("b", Ipld.integer 1), ("a", Ipld.bool true)])
      (Ipld.map [("a", Ipld.bool true), ("b", Ipld.integer 1)]) ∧
    schema (Ipld.map [("b", Ipld.integer 1), ("a", Ipld.bool true)]) =
      schema (Ipld.map [("a", Ipld.bool true), ("b", Ipld.integer 1)]) := by
  have hre : ReordEquiv (Ipld.map [("b", Ipld.integer 1), ("a", Ipld.bool true)])
      (Ipld.map [("a", Ipld.bool true), ("b", Ipld.integer 1)]) := by
    refine ReordEquiv.map [("b", Ipld.integer 1), ("a", Ipld.bool true)]
      [("b", Ipld.integer 1), ("a", Ipld.bool true)]
      [("a", Ipld.bool true), ("b", Ipld.integer 1)]
      (by simp) rfl (fun i h₁ h₂ => rfl) (fun i h₁ h₂ => ?_)
      (List.Perm.swap ("a", Ipld.bool true) ("b", Ipld.integer 1) [])
    match i with
    | 0 => exact ReordEquiv.integer 1
    | 1 => exact ReordEquiv.bool true
    | n + 2 => exact absurd h₁ (by simp)
  exact ⟨hre, schema_insertion_order_invariant.1 _ _ hre⟩

/-- Keys after an upsert: unchanged when the key already has a bucket,
appended otherwise. -/
theorem upsert_keys (k : Schema) (r : Rec) : ∀ acc : List (Schema × List Rec),
    (upsert k r acc).map Prod.fst =
      if k ∈ acc.map Prod.fst then acc.map Prod.fst else acc.map Prod.fst ++ [k]
  | [] => by simp [upsert]
  | (k2, rs) :: t => by
      by_cases hk : k = k2
      · subst hk; simp [upsert]
      · simp only [upsert, if_neg hk, List.map_cons, upsert_keys k r t]
        by_cases hmem : k ∈ t.map Prod.fst
        · simp [hmem, hk]
        · simp [hmem, hk]

/-- Key sets stay duplicate-free across an upsert. -/
theorem upsert_keys_nodup {k : Schema} {r : Rec} {acc : List (Schema × List Rec)}
    (h : (acc.map Prod.fst).Nodup) : ((upsert k r acc).map Prod.fst).Nodup := by
  rw [upsert_keys]
  by_cases hmem : k ∈ acc.map Prod.fst
  · simpa [hmem] using h
  · simp [hmem, List.nodup_append, h]

/-- Characterization of the buckets after an upsert with duplicate-free
keys: untouched buckets of other keys, the key's grown bucket, or a fresh
singleton bucket when the key was absent. -/
theorem upsert_mem {k : Schema} {r : Rec} :
    ∀ {acc : List (Schema × List Rec)}, (acc.map Prod.fst).Nodup →
      ∀ {p : Schema × List Rec}, p ∈ upsert k r acc →
      (p.1 ≠ k ∧ p ∈ acc) ∨
      (p.1 = k ∧ ((∃ rs, (k, rs) ∈ acc ∧ p.2 = rs ++ [r]) ∨
        (k ∉ acc.map Prod.fst ∧ p.2 = [r]))) := by
  intro acc
  induction acc with
  | nil =>
      intro _ p hp
      simp only [upsert, List.mem_singleton] at hp
      subst hp
      exact Or.inr ⟨rfl, Or.inr ⟨by simp, rfl⟩⟩
  | cons hd t ih =>
      obtain ⟨k2, rs⟩ := hd
      intro hnd p hp
      by_cases hk : k = k2
      · subst hk
        simp only [upsert, if_pos rfl] at hp
        rcases List.mem_cons.mp hp with rfl | hpt
        · exact Or.inr ⟨rfl, Or.inl ⟨rs, List.mem_cons_self _ _, rfl⟩⟩
        · left
          refine ⟨?_, List.mem_cons_of_mem _ hpt⟩
          intro hpk
          have : p.1 ∈ t.map Prod.fst := List.mem_map_of_mem Prod.fst hpt
          rw [hpk] at this
          simp only [List.map_cons, List.nodup_cons] at hnd
          exact hnd.1 this
      · simp only [upsert, if_neg hk] at hp
        rcases List.mem_cons.mp hp with rfl | hpt
        · exact Or.inl ⟨fun hpk => hk hpk.symm, List.mem_cons_self _ _⟩
        · have hndt : (t.map Prod.fst).Nodup := by
            simp only [List.map_cons, List.nodup_cons] at hnd
            exact hnd.2
          rcases ih hndt hpt with ⟨hne, hpm⟩ | ⟨hpk, hrest⟩
          · exact Or.inl ⟨hne, List.mem_cons_of_mem _ hpm⟩
          · refine Or.inr ⟨hpk, ?_⟩
            rcases hrest with ⟨rs2, hmem, heq⟩ | ⟨habs, heq⟩
            · exact Or.inl ⟨rs2, List.mem_cons_of_mem _ hmem, heq⟩
            · refine Or.inr ⟨?_, heq⟩
              simp only [List.map_cons, List.mem_cons]
              rintro (h1 | h2)
              · exact hk h1
              · exact habs h2

/-- Invariant of the grouping fold of main: buckets are exactly the
key-filtered slices of the processed prefix, keys are duplicate-free, and
every processed record's key owns a bucket. -/
theorem groupBy_invariant :
    ∀ (records : List Rec) (acc : List (Schema × List Rec)) (processed : List Rec),
      ((acc.map Prod.fst).Nodup) →
      (∀ p ∈ acc, p.2 = processed.filter fun r => decide (bucketKey r = p.1)) →
      (∀ r ∈ processed, bucketKey r ∈ acc.map Prod.fst) →
      (((records.foldl (fun a r => upsert (bucketKey r) r a) acc).map Prod.fst).Nodup) ∧
      (∀ p ∈ records.foldl (fun a r => upsert (bucketKey r) r a) acc,
        p.2 = (processed ++ records).filter fun r => decide (bucketKey r = p.1)) ∧
      (∀ r ∈ processed ++ records,
        bucketKey r ∈ (records.foldl (fun a r => upsert (bucketKey r) r a) acc).map Prod.fst)
  | [], acc, processed, h1, h2, h3 =>
      ⟨by simpa using h1, by simpa using h2, by simpa using h3⟩
  | rec0 :: rest, acc, processed, h1, h2, h3 => by
      have new1 : (((upsert (bucketKey rec0) rec0 acc).map Prod.fst)).Nodup :=
        upsert_keys_nodup h1
      have new2 : ∀ p ∈ upsert (bucketKey rec0) rec0 acc,
          p.2 = (processed ++ [rec0]).filter fun r => decide (bucketKey r = p.1) := by
        intro p hp
        rcases upsert_mem h1 hp with ⟨hne, hpm⟩ | ⟨hpk, hrest⟩
        · rw [h2 p hpm, List.filter_append]
          have : (List.filter (fun r => decide (bucketKey r = p.1)) [rec0]) = [] := by
            simp only [List.filter_eq_nil_iff]
            intro a ha
            simp only [List.mem_singleton] at ha
            subst ha
            simp only [decide_eq_true_eq]
            exact fun hcontra => hne hcontra.symm
          rw [this, List.append_nil]
        · rcases hrest with ⟨rs, hmem, heq⟩ | ⟨habs, heq⟩
          · have hrs := h2 (bucketKey rec0, rs) hmem
            simp only at hrs
            rw [heq, hrs, hpk, List.filter_append]
            congr 1
            simp
          · have hnil : (processed.filter fun r => decide (bucketKey r = p.1)) = [] := by
              simp only [List.filter_eq_nil_iff]
              intro a ha
              simp only [decide_eq_true_eq]
              intro hak
              apply habs
              rw [← hpk, ← hak]
              exact h3 a ha
            rw [heq, List.filter_append, hnil, List.nil_append]
            simp [hpk]
      have new3 : ∀ r ∈ processed ++ [rec0],
          bucketKey r ∈ (upsert (bucketKey rec0) rec0 acc).map Prod.fst := by
        intro r hr
        rw [upsert_keys]
        rcases List.mem_append.mp hr with hrp | hr0
        · have := h3 r hrp
          split <;> simp [this]
        · simp only [List.mem_singleton] at hr0
          subst hr0
          split
          case isTrue h => exact h
          case isFalse h => simp
      have step := groupBy_invariant rest (upsert (bucketKey rec0) rec0 acc)
        (processed ++ [rec0]) new1 new2 new3
      simpa using step

/-- Claim C8: shape grouping is a partition of the input: bucket keys are
pairwise distinct, each bucket is exactly the input-ordered slice of
records of its key (so every bucket keeps input order and holds only its
own records), every input record lies in some bucket, and distinct buckets
are disjoint. -/
theorem grouping_partition (records : List Rec) :
    ((collectSchemas records).map Prod.fst).Nodup ∧
    (∀ p ∈ collectSchemas records,
      p.2 = records.filter fun r => decide (bucketKey r = p.1)) ∧
    (∀ r ∈ records, ∃ p ∈ collectSchemas records, r ∈ p.2) ∧
    (∀ p ∈ collectSchemas records, ∀ q ∈ collectSchemas records, p ≠ q →
      ∀ x ∈ p.2, x ∉ q.2) := by
  obtain ⟨h1, h2, h3⟩ := groupBy_invariant records [] [] (by simp) (by simp) (by simp)
  have hGdef : records.foldl (fun a r => upsert (bucketKey r) r a) [] =
      groupBySchema records := rfl
  rw [hGdef] at h1 h2 h3
  simp only [List.nil_append] at h2 h3
  have hperm : (collectSchemas records).Perm (groupBySchema records) :=
    (List.reverse_perm _).trans (List.perm_insertionSort popLe _)
  have hkeysnd : ((collectSchemas records).map Prod.fst).Nodup :=
    ((hperm.map Prod.fst).nodup_iff).mpr h1
  refine ⟨hkeysnd, ?_, ?_, ?_⟩
  · intro p hp
    exact h2 p (hperm.mem_iff.mp hp)
  · intro r hr
    have hkey := h3 r hr
    obtain ⟨p, hpmem, hpfst⟩ := List.mem_map.mp hkey
    refine ⟨p, hperm.mem_iff.mpr hpmem, ?_⟩
    rw [h2 p hpmem]
    simp only [List.mem_filter, decide_eq_true_eq]
    exact ⟨hr, hpfst.symm⟩
  · intro p hp q hq hpq x hxp hxq
    have hkp : bucketKey x = p.1 := by
      rw [h2 p (hperm.mem_iff.mp hp)] at hxp
      simpa using (List.mem_filter.mp hxp).2
    have hkq : bucketKey x = q.1 := by
      rw [h2 q (hperm.mem_iff.mp hq)] at hxq
      simpa using (List.mem_filter.mp hxq).2
    apply hpq
    exact List.inj_on_of_nodup_map hkeysnd hp hq (by rw [← hkp, ← hkq])

/-- Witness for claim C8: in a concrete three-record input, the first
record lies in a bucket of the computed grouping. -/
theorem grouping_partition_witness :
    ∃ p ∈ collectSchemas
        [((0 : Nat), Ipld.integer 1, ([] : List Nat)),
         ((1 : Nat), Ipld.string "a", ([] : List Nat)),
         ((2 : Nat), Ipld.integer 2, ([] : List Nat))],
      ((0 : Nat), Ipld.integer 1, ([] : List Nat)) ∈ p.2 :=
  (grouping_partition
    [((0 : Nat), Ipld.integer 1, ([] : List Nat)),
     ((1 : Nat), Ipld.string "a", ([] : List Nat)),
     ((2 : Nat), Ipld.integer 2, ([] : List Nat))]).2.2.1 _ (by simp)
